import Mathlib

/-!
Verification of the `repl-with` package-specifier parsing, argv mapping,
validation and session pipeline (`src/lib.ts`, `src/index.ts`).

The specifier regex
`^(?<install>(?<scope>@[^\/]+\/)?(?<name>[^\/@]+)(?<version>@[^\/]+)?)(?<subpath>\/.+)?$`
is embedded as a specialized backtracking matcher over `List Char`, mirroring
JavaScript regex semantics: greedy `+` quantifiers try the longest candidate
first, optional groups try to participate before being skipped, and `.`
excludes the four line-terminator characters.
-/

namespace ReplWith

/-- The four characters JavaScript's `.` does not match (no `s` flag). -/
def isLineTerminator (c : Char) : Bool :=
  c == '\n' || c == '\r' || c == ' ' || c == ' '

/-- First successful result of `f` over the candidate list, in order: the
backtracking search over alternatives. -/
def firstSome : List α → (α → Option β) → Option β
  | [], _ => none
  | a :: as, f => match f a with
    | some b => some b
    | none => firstSome as f

/-- Candidate splits for a greedy `X+` over character class `p`: the matched
prefix and the remainder, longest prefix first, shortest (one character) last. -/
def greedySplits (p : Char → Bool) (cs : List Char) : List (List Char × List Char) :=
  (List.range (cs.takeWhile p).length).map fun j =>
    (cs.take ((cs.takeWhile p).length - j), cs.drop ((cs.takeWhile p).length - j))

/-- Matches `(?<subpath>\/.+)?$`, returning the subpath capture (with its
leading slash, or `[]` when the group does not participate). -/
def matchSubpathEnd (cs : List Char) : Option (List Char) :=
  (match cs with
   | c :: rest =>
     if c = '/' then
       firstSome (greedySplits (fun d => !isLineTerminator d) rest) fun pr =>
         if pr.2 = [] then some ('/' :: pr.1) else none
     else none
   | [] => none)
  <|> (if cs = [] then some ([] : List Char) else none)

/-- Matches `(?<version>@[^\/]+)?(?<subpath>\/.+)?$`, returning the version and
subpath captures. -/
def matchVersionThenSubpath (cs : List Char) : Option (List Char × List Char) :=
  (match cs with
   | c :: rest =>
     if c = '@' then
       firstSome (greedySplits (fun d => d != '/') rest) fun pr =>
         (matchSubpathEnd pr.2).map fun sub => ('@' :: pr.1, sub)
     else none
   | [] => none)
  <|> (matchSubpathEnd cs).map fun sub => (([] : List Char), sub)

/-- Matches `(?<name>[^\/@]+)(?<version>@[^\/]+)?(?<subpath>\/.+)?$`. -/
def matchNameTail (cs : List Char) : Option (List Char × List Char × List Char) :=
  firstSome (greedySplits (fun d => d != '/' && d != '@') cs) fun pr =>
    (matchVersionThenSubpath pr.2).map fun vs => (pr.1, vs.1, vs.2)

/-- The whole anchored pattern `packageSpecPattern`: returns the scope, name,
version and subpath captures (`install` is their recombination, see
`parsePackageSpec`). -/
def matchSpec (cs : List Char) : Option (List Char × List Char × List Char × List Char) :=
  (match cs with
   | c :: rest =>
     if c = '@' then
       firstSome (greedySplits (fun d => d != '/') rest) fun pr =>
         match pr.2 with
         | d :: rem =>
           if d = '/' then (matchNameTail rem).map fun nvs => ('@' :: (pr.1 ++ ['/']), nvs)
           else none
         | [] => none
     else none
   | [] => none)
  <|> (matchNameTail cs).map fun nvs => (([] : List Char), nvs)

/-- The `Package` type of `lib.ts`. -/
structure Package where
  install : String
  scope : String
  name : String
  version : String
  subpath : String
deriving Repr, DecidableEq

/-- `parsePackageSpec` of `lib.ts`: match the spec against the pattern; each
absent capture (and every field when the whole match fails) falls back to the
empty string via `|| ''`. -/
def parsePackageSpec (spec : String) : Package :=
  match matchSpec spec.data with
  | some (sc, n, v, sub) =>
    { install := String.mk (sc ++ n ++ v), scope := String.mk sc, name := String.mk n,
      version := String.mk v, subpath := String.mk sub }
  | none => { install := "", scope := "", name := "", version := "", subpath := "" }

/-- JavaScript `String.prototype.split` with a single-character separator. -/
def splitOn (c : Char) : List Char → List (List Char)
  | [] => [[]]
  | x :: xs =>
    match splitOn c xs with
    | [] => [[x]]
    | r :: rs => if x = c then [] :: r :: rs else (x :: r) :: rs

/-- The `PackageToInstall` type of `lib.ts` (`aliasName` models the `alias`
field, which is a reserved word in Lean). -/
structure PackageToInstall extends Package where
  spec : String
  aliasName : String
deriving Repr, DecidableEq

/-- `getPackagesToInstallFromArgv` of `lib.ts`: one record per token; a token
containing `=` is split as `alias=spec` via `arg.split('=')`, taking element 0
as the alias and element 1 as the spec; otherwise the whole token is the spec
and the alias defaults to the parsed name. -/
def getPackagesToInstallFromArgv (argv : List String) : List PackageToInstall :=
  argv.map fun arg =>
    let hasAlias := arg.data.contains '='
    let spec := if hasAlias then String.mk ((splitOn '=' arg.data).getD 1 []) else arg
    let parsedSpec := parsePackageSpec spec
    { toPackage := parsedSpec,
      spec := spec,
      aliasName := if hasAlias then String.mk ((splitOn '=' arg.data).getD 0 []) else parsedSpec.name }

/-- Character class `[a-zA-Z_$]` of the alias regex, by code point
(97-122 is a-z, 65-90 is A-Z, 95 is the underscore, 36 is the dollar sign). -/
def isJsIdentStartChar (c : Char) : Bool :=
  (97 ≤ c.toNat && c.toNat ≤ 122) || (65 ≤ c.toNat && c.toNat ≤ 90) ||
  c.toNat == 95 || c.toNat == 36

/-- Character class `[a-zA-Z0-9_$]` (48-57 is 0-9). -/
def isJsIdentChar (c : Char) : Bool :=
  isJsIdentStartChar c || (48 ≤ c.toNat && c.toNat ≤ 57)

/-- The `JS_RESERVED_WORDS` list of `lib.ts`. -/
def JS_RESERVED_WORDS : List String :=
  ["break", "case", "catch", "class", "const", "continue", "debugger", "default", "delete", "do",
   "else", "enum", "export", "extends", "false", "finally", "for", "function", "if", "import",
   "in", "instanceof", "let", "new", "null", "return", "super", "switch", "this", "throw",
   "true", "try", "typeof", "var", "void", "while", "with", "yield"]

/-- `isValidJsVariableName` of `lib.ts`: not a reserved word, and matching
`^[a-zA-Z_$][a-zA-Z0-9_$]*$`. -/
def isValidJsVariableName (name : String) : Bool :=
  if JS_RESERVED_WORDS.contains name then false
  else match name.data with
    | [] => false
    | c :: cs => isJsIdentStartChar c && cs.all isJsIdentChar

/-- Characters left unchanged by JavaScript's `encodeURIComponent`:
alphanumerics and `-_.!~*'()` (code points 45, 95, 46, 33, 126, 42, 39, 40, 41). -/
def urlFriendlyChar (c : Char) : Bool :=
  (97 ≤ c.toNat && c.toNat ≤ 122) || (65 ≤ c.toNat && c.toNat ≤ 90) ||
  (48 ≤ c.toNat && c.toNat ≤ 57) ||
  c.toNat == 45 || c.toNat == 95 || c.toNat == 46 || c.toNat == 33 ||
  c.toNat == 126 || c.toNat == 42 || c.toNat == 39 || c.toNat == 40 || c.toNat == 41

/-- Whether a string starts with the given character. -/
def startsWithChar (c : Char) (s : String) : Bool :=
  match s.data with
  | [] => false
  | x :: _ => x == c

/-- Modelled from the spec: scoped-name escape hatch of the external
`validate-npm-package-name` library (not part of this repository): a name of
the form `@user/pkg` whose two nonempty slash-free parts are both
`encodeURIComponent`-clean is accepted even though it contains `@` and `/`. -/
def scopedNameOk (s : String) : Bool :=
  match s.data with
  | '@' :: rest =>
    let user := rest.takeWhile (fun c => c != '/')
    match rest.drop user.length with
    | '/' :: pkg =>
      !user.isEmpty && !pkg.isEmpty && pkg.all (fun c => c != '/') &&
      user.all urlFriendlyChar && pkg.all urlFriendlyChar
    | _ => false
  | _ => false

/-- JavaScript whitespace characters relevant to `name.trim()` (space, tab,
newline, carriage return, vertical tab, form feed). -/
def jsWhitespaceChar (c : Char) : Bool :=
  c == ' ' || c == '\t' || c == '\n' || c == '\r' ||
  c.toNat == 11 || c.toNat == 12

/-- ASCII lowercasing (code points 65-90 map to 97-122), for the
case-insensitive blacklist comparison `name.toLowerCase()`. -/
def asciiToLower (c : Char) : Char :=
  if 65 ≤ c.toNat ∧ c.toNat ≤ 90 then Char.ofNat (c.toNat + 32) else c

/-- Modelled from the spec: the error conditions of the external
`validate-npm-package-name` library (a third-party dependency, not part of this
repository), per its documented naming rules: nonempty, no leading dot or
underscore, no surrounding whitespace (`name.trim() !== name`), not a
blacklisted name (case-insensitively), and URL-friendly (directly or as a
scoped `@user/pkg` name). -/
def validateNpmPackageNameHasErrors (name : String) : Bool :=
  name.length == 0 ||
  startsWithChar '.' name ||
  startsWithChar '_' name ||
  name.data.head?.any jsWhitespaceChar ||
  name.data.getLast?.any jsWhitespaceChar ||
  (name.data.map asciiToLower) == ("node_modules").data ||
  (name.data.map asciiToLower) == ("favicon.ico").data ||
  (!(name.data.all urlFriendlyChar) && !(scopedNameOk name))

/-- The per-package body of the `forEach` in `validatePackageNames`: invalid
alias, then invalid npm package name (`scope + name`), each raising an error. -/
def validateOnePackage (pkg : PackageToInstall) : Except String Unit :=
  if !(isValidJsVariableName pkg.aliasName) then
    .error ("Invalid alias: " ++ pkg.aliasName ++ ". Aliases must be valid JavaScript variable names.")
  else
    let packageName := pkg.scope ++ pkg.name
    if validateNpmPackageNameHasErrors packageName then
      .error ("Invalid package name: " ++ packageName ++ ". Names must be valid npm package names: https://www.npmjs.com/package/validate-npm-package-name#naming-rules")
    else .ok ()

/-- The `forEach` loop of `validatePackageNames`: the first failing package's
error is thrown. -/
def validateEach : List PackageToInstall → Except String Unit
  | [] => .ok ()
  | pkg :: rest =>
    match validateOnePackage pkg with
    | .error e => .error e
    | .ok _ => validateEach rest

/-- The `InstalledPackage` type of `lib.ts`. -/
structure InstalledPackage extends PackageToInstall where
  uuid : String
  installedPath : String
deriving Repr, DecidableEq

/-- The `allAliases` array of `validatePackageNames`:
`[...newPackages, ...alreadyInstalled].map(pkg => pkg.alias)`. -/
def allAliases (newPackages : List PackageToInstall)
    (alreadyInstalled : List InstalledPackage) : List String :=
  newPackages.map (fun p => p.aliasName) ++ alreadyInstalled.map (fun p => p.aliasName)

/-- `validatePackageNames` of `lib.ts`: per-package checks, then the
duplicate-alias check over new and already-installed packages via a `Set`
(whose size is the number of distinct aliases, here `List.dedup`). -/
def validatePackageNames (newPackages : List PackageToInstall)
    (alreadyInstalled : List InstalledPackage) : Except String Unit :=
  match validateEach newPackages with
  | .error e => .error e
  | .ok _ =>
    if (allAliases newPackages alreadyInstalled).length ≠
        (allAliases newPackages alreadyInstalled).dedup.length then
      .error ("Package names must be unique, or use unique aliases (e.g. \"l=lodash\") to import multiple versions of the same package.")
    else .ok ()

/-- `installPackage` of `lib.ts`: the `npm install` shell call is the
environment, modelled as an oracle producing the generated uuid and resolved
installed path, or the wrapped failure of the underlying command. -/
def installPackage (oracle : PackageToInstall → Except String (String × String))
    (pkg : PackageToInstall) : Except String InstalledPackage :=
  match oracle pkg with
  | .ok r => .ok { toPackageToInstall := pkg, uuid := r.1, installedPath := r.2 }
  | .error _ => .error ("Failed to install " ++ pkg.install ++ ":")

/-- `installPackages` of `lib.ts`: `Promise.all` over the batch; the batch
succeeds with the results in input order exactly when every installation
succeeds, and fails if any fails. -/
def installPackages (oracle : PackageToInstall → Except String (String × String)) :
    List PackageToInstall → Except String (List InstalledPackage)
  | [] => .ok []
  | pkg :: rest =>
    match installPackage oracle pkg with
    | .error e => .error e
    | .ok installed =>
      match installPackages oracle rest with
      | .error e => .error e
      | .ok others => .ok (installed :: others)

/-- The startup path of `index.ts` `main` up to the installed-package list:
map argv, validate against an empty installed list, install the batch. Any
error aborts before the REPL session starts. -/
def main (oracle : PackageToInstall → Except String (String × String))
    (argv : List String) : Except String (List InstalledPackage) :=
  match validatePackageNames (getPackagesToInstallFromArgv argv) [] with
  | .error e => .error e
  | .ok _ => installPackages oracle (getPackagesToInstallFromArgv argv)

/-- `importAdditionalPackagesViaCommand` of `lib.ts`, as the transition on the
session's installed-package list (its `argv` argument is the `stringArgv`
tokenization of the command text). The `try` block pushes the newly installed
packages only after validation and the whole installation batch succeed; the
`catch` leaves the list untouched. The subsequent context import does not
modify the list. -/
def importAdditionalPackagesViaCommand
    (oracle : PackageToInstall → Except String (String × String))
    (argv : List String) (installedPackages : List InstalledPackage) :
    List InstalledPackage :=
  match validatePackageNames (getPackagesToInstallFromArgv argv) installedPackages with
  | .error _ => installedPackages
  | .ok _ =>
    match installPackages oracle (getPackagesToInstallFromArgv argv) with
    | .error _ => installedPackages
    | .ok newlyInstalledPackages => installedPackages ++ newlyInstalledPackages

/-- The installed-package lists reachable in a session: the startup
installation of `index.ts`, followed by any number of `.import` commands. -/
inductive ReachableList : List InstalledPackage → Prop where
  | startup (oracle : PackageToInstall → Except String (String × String))
      (argv : List String) (pkgs : List InstalledPackage) :
      main oracle argv = .ok pkgs → ReachableList pkgs
  | importCmd (oracle : PackageToInstall → Except String (String × String))
      (argv : List String) (l : List InstalledPackage) :
      ReachableList l → ReachableList (importAdditionalPackagesViaCommand oracle argv l)

/-- JavaScript values, as far as module exports and truthiness are concerned. -/
inductive JsValue where
  | undefined
  | null
  | boolean (b : Bool)
  | number (n : Int)
  | string (s : String)
  | object (fields : List (String × JsValue))

/-- JavaScript truthiness: `undefined`, `null`, `false`, `0` and the empty
string are falsy, everything else is truthy. -/
def truthy : JsValue → Bool
  | .undefined => false
  | .null => false
  | .boolean b => b
  | .number n => n != 0
  | .string s => !s.isEmpty
  | .object _ => true

/-- JavaScript property read `pkg[k]`: `undefined` when the key is absent. -/
def jsGet (fields : List (String × JsValue)) (k : String) : JsValue :=
  (fields.lookup k).getD .undefined

/-- Property lookup in the evaluation context (newest binding first). -/
def jsLookup (ctx : List (String × JsValue)) (k : String) : Option JsValue :=
  ctx.lookup k

/-- The binding step of `importPackageIntoContext` in `lib.ts`, given the
loaded module's namespace object (`Object.keys` order): when
`Object.keys(pkg).length === 1 && pkg['default']` is truthy the default export
value is bound to the alias via `Object.defineProperty`, otherwise the whole
module object is; the context is an association list with the newest binding
shadowing older ones (the property is configurable and writable, so rebinding
overwrites). -/
def importPackageIntoContext (ctx : List (String × JsValue)) (aliasName : String)
    (pkg : List (String × JsValue)) : List (String × JsValue) :=
  let onlyHasDefaultExport := ((pkg.map Prod.fst).length == 1) && truthy (jsGet pkg ("default"))
  (aliasName, if onlyHasDefaultExport then jsGet pkg ("default") else .object pkg) :: ctx

/-- Modelled from the spec: a scope segment `@scope-name/` of the grammar
`(@scope/)?name(@version)?(/subpath)?`, or absent. -/
def ScopeShape (sc : List Char) : Prop :=
  sc = [] ∨ ∃ t, t ≠ [] ∧ (∀ c ∈ t, c ≠ '/') ∧ sc = '@' :: (t ++ ['/'])

/-- Modelled from the spec: a bare name, a nonempty run of characters other
than `/` and `@`. -/
def NameShape (n : List Char) : Prop :=
  n ≠ [] ∧ ∀ c ∈ n, c ≠ '/' ∧ c ≠ '@'

/-- Modelled from the spec: a version suffix starting with `@`, capturing
everything up to the next `/`, or absent. -/
def VersionShape (v : List Char) : Prop :=
  v = [] ∨ ∃ t, t ≠ [] ∧ (∀ c ∈ t, c ≠ '/') ∧ v = '@' :: t

/-- Modelled from the spec: a subpath starting with `/`, capturing the
nonempty remainder, or absent. -/
def SubpathShape (sub : List Char) : Prop :=
  sub = [] ∨ ∃ t, t ≠ [] ∧ sub = '/' :: t

/-- Modelled from the spec: the specifier grammar
`(@scope/)?name(@version)?(/subpath)?`. -/
def MatchesSpecGrammar (s : String) : Prop :=
  ∃ sc n v sub, s.data = sc ++ n ++ v ++ sub ∧
    ScopeShape sc ∧ NameShape n ∧ VersionShape v ∧ SubpathShape sub

/-- Modelled from the spec: JavaScript's identifier-start characters, that is
`ID_Start` together with `$` (36) and `_` (95). The host-language grammar is
Unicode-wide; this model is exact on ASCII and the Latin-1 Supplement, where
`ID_Start` comprises the ASCII letters (65-90, 97-122) and the Latin-1 letters
U+00AA, U+00B5, U+00BA, U+00C0-U+00D6, U+00D8-U+00F6 and U+00F8-U+00FF. -/
def jsIdentifierStartChar (c : Char) : Bool :=
  (97 ≤ c.toNat && c.toNat ≤ 122) || (65 ≤ c.toNat && c.toNat ≤ 90) ||
  c.toNat == 95 || c.toNat == 36 ||
  c.toNat == 170 || c.toNat == 181 || c.toNat == 186 ||
  (192 ≤ c.toNat && c.toNat ≤ 214) || (216 ≤ c.toNat && c.toNat ≤ 246) ||
  (248 ≤ c.toNat && c.toNat ≤ 255)

/-- Modelled from the spec: JavaScript's identifier-part characters on the same
character fragment — `ID_Continue` adds the decimal digits (48-57) here. -/
def jsIdentifierPartChar (c : Char) : Bool :=
  jsIdentifierStartChar c || (48 ≤ c.toNat && c.toNat ≤ 57)

/-- Modelled from the spec: a syntactically legal JavaScript identifier (an
identifier-start character followed by identifier-part characters), on the
modelled character fragment. -/
def jsIdentifierName (s : String) : Bool :=
  match s.data with
  | [] => false
  | c :: cs => jsIdentifierStartChar c && cs.all jsIdentifierPartChar

instance : DecidableEq (Except String Unit) := fun a b =>
  match a, b with
  | .ok x, .ok y => .isTrue (by cases x; cases y; rfl)
  | .ok _, .error _ => .isFalse (by simp)
  | .error _, .ok _ => .isFalse (by simp)
  | .error e, .error f =>
    if h : e = f then .isTrue (by rw [h]) else .isFalse (by simp [h])

theorem firstSome_eq_some {α β : Type} {f : α → Option β} {l : List α} {b : β}
    (h : firstSome l f = some b) : ∃ a ∈ l, f a = some b := by
  induction l with
  | nil => simp [firstSome] at h
  | cons a as ih =>
    rw [firstSome] at h
    cases hf : f a with
    | some b' =>
      rw [hf] at h
      exact ⟨a, List.mem_cons_self a as, hf.trans h⟩
    | none =>
      rw [hf] at h
      obtain ⟨a', ha', hfa'⟩ := ih h
      exact ⟨a', List.mem_cons_of_mem a ha', hfa'⟩

theorem firstSome_cons_of_some {α β : Type} {f : α → Option β} {a : α} {l : List α} {b : β}
    (h : f a = some b) : firstSome (a :: l) f = some b := by
  rw [firstSome, h]

theorem all_of_mem_take_takeWhile {p : Char → Bool} {l : List Char} {i : ℕ}
    (hi : i ≤ (l.takeWhile p).length) : ∀ c ∈ l.take i, p c = true := by
  intro c hc
  have h1 : l.take i <+: l.take (l.takeWhile p).length :=
    List.take_isPrefix_take.mpr (Or.inl hi)
  rw [← List.prefix_iff_eq_take.mp ( List.takeWhile_prefix p)] at h1
  exact List.mem_takeWhile_imp (h1.subset hc)

theorem greedySplits_sound {p : Char → Bool} {cs t r : List Char}
    (h : (t, r) ∈ greedySplits p cs) :
    cs = t ++ r ∧ t ≠ [] ∧ ∀ c ∈ t, p c = true := by
  rw [greedySplits, List.mem_map] at h
  obtain ⟨j, hj, heq⟩ := h
  rw [List.mem_range] at hj
  have ht : cs.take ((cs.takeWhile p).length - j) = t := congrArg Prod.fst heq
  have hr : cs.drop ((cs.takeWhile p).length - j) = r := congrArg Prod.snd heq
  have hipos : 1 ≤ (cs.takeWhile p).length - j := by omega
  have hmlen : (cs.takeWhile p).length ≤ cs.length :=
    (List.takeWhile_sublist p).length_le
  refine ⟨by rw [← ht, ← hr, List.take_append_drop], ?_, ?_⟩
  · rw [← ht]
    intro hnil
    have h0 := congrArg List.length hnil
    rw [List.length_take] at h0
    simp only [List.length_nil] at h0
    omega
  · intro c hc
    rw [← ht] at hc
    exact all_of_mem_take_takeWhile (Nat.sub_le _ _) c hc

theorem greedySplits_head {p : Char → Bool} {cs : List Char}
    (h : cs.takeWhile p ≠ []) :
    ∃ rest, greedySplits p cs =
      (cs.takeWhile p, cs.drop (cs.takeWhile p).length) :: rest := by
  obtain ⟨k, hk⟩ : ∃ k, (cs.takeWhile p).length = k + 1 := by
    cases hml : (cs.takeWhile p).length with
    | zero => exact absurd (List.length_eq_zero.mp hml) h
    | succ k => exact ⟨k, rfl⟩
  refine ⟨(List.range k).map fun j =>
    (cs.take (k - j), cs.drop (k - j)), ?_⟩
  rw [greedySplits, hk, List.range_succ_eq_map, List.map_cons, List.map_map]
  congr 1
  · rw [Nat.sub_zero, ← hk, ← List.prefix_iff_eq_take.mp ( List.takeWhile_prefix p)]
  · apply List.map_congr_left
    intro j _
    simp only [Function.comp_apply, Nat.succ_eq_add_one, Nat.succ_sub_succ_eq_sub]

theorem takeWhile_append_eq {α : Type} {p : α → Bool} :
    ∀ (l₁ l₂ : List α), (∀ c ∈ l₁, p c = true) →
    (∀ c t, l₂ = c :: t → p c = false) →
    (l₁ ++ l₂).takeWhile p = l₁ := by
  intro l₁ l₂ h1 h2
  induction l₁ with
  | nil =>
    simp only [List.nil_append]
    cases hl : l₂ with
    | nil => rfl
    | cons c t => simp [List.takeWhile_cons, h2 c t hl]
  | cons x xs ih =>
    simp [List.takeWhile_cons, h1 x (by simp), ih fun c hc => h1 c (by simp [hc])]

theorem matchSubpathEnd_sound {cs sub : List Char}
    (h : matchSubpathEnd cs = some sub) : sub = cs ∧ SubpathShape sub := by
  rw [matchSubpathEnd.eq_def, Option.orElse_eq_some] at h
  rcases h with h | ⟨-, h⟩
  · split at h
    · next c rest =>
      split at h
      · next hc =>
        subst hc
        obtain ⟨⟨t, r⟩, hmem, hf⟩ := firstSome_eq_some h
        obtain ⟨hcat, htne, -⟩ := greedySplits_sound hmem
        dsimp only at hf
        split at hf
        · next hr =>
          cases hf
          rw [hr, List.append_nil] at hcat
          exact ⟨by rw [hcat], Or.inr ⟨t, htne, rfl⟩⟩
        · cases hf
      · cases h
    · cases h
  · split at h
    · next hcs =>
      cases h
      exact ⟨hcs.symm, Or.inl rfl⟩
    · cases h

theorem matchVersionThenSubpath_sound {cs : List Char} {v sub : List Char}
    (h : matchVersionThenSubpath cs = some (v, sub)) :
    cs = v ++ sub ∧ VersionShape v ∧ SubpathShape sub := by
  rw [matchVersionThenSubpath.eq_def, Option.orElse_eq_some] at h
  rcases h with h | ⟨-, h⟩
  · split at h
    · next c rest =>
      split at h
      · next hc =>
        subst hc
        obtain ⟨⟨t, r⟩, hmem, hf⟩ := firstSome_eq_some h
        obtain ⟨hcat, htne, htp⟩ := greedySplits_sound hmem
        dsimp only at hf
        rw [Option.map_eq_some'] at hf
        obtain ⟨s₂, hm, heq⟩ := hf
        obtain ⟨hs₂, hshape⟩ := matchSubpathEnd_sound hm
        cases heq
        refine ⟨by rw [hcat, hs₂, List.cons_append], Or.inr ⟨t, htne, ?_, rfl⟩, hshape⟩
        intro c hc
        have := htp c hc
        simpa [bne_iff_ne] using this
      · cases h
    · cases h
  · rw [Option.map_eq_some'] at h
    obtain ⟨s₂, hm, heq⟩ := h
    obtain ⟨hs₂, hshape⟩ := matchSubpathEnd_sound hm
    cases heq
    exact ⟨by rw [hs₂, List.nil_append], Or.inl rfl, hshape⟩

theorem matchNameTail_sound {cs : List Char} {n v sub : List Char}
    (h : matchNameTail cs = some (n, v, sub)) :
    cs = n ++ v ++ sub ∧ NameShape n ∧ VersionShape v ∧ SubpathShape sub := by
  rw [matchNameTail.eq_def] at h
  obtain ⟨⟨t, r⟩, hmem, hf⟩ := firstSome_eq_some h
  obtain ⟨hcat, htne, htp⟩ := greedySplits_sound hmem
  dsimp only at hf
  rw [Option.map_eq_some'] at hf
  obtain ⟨⟨v', s'⟩, hm, heq⟩ := hf
  obtain ⟨hr, hvshape, hsshape⟩ := matchVersionThenSubpath_sound hm
  cases heq
  refine ⟨by rw [hcat, hr, List.append_assoc], ⟨htne, ?_⟩, hvshape, hsshape⟩
  intro c hc
  have := htp c hc
  simp only [Bool.and_eq_true, bne_iff_ne, ne_eq] at this
  exact this

theorem matchSpec_sound {cs : List Char} {sc n v sub : List Char}
    (h : matchSpec cs = some (sc, n, v, sub)) :
    cs = sc ++ n ++ v ++ sub ∧
      ScopeShape sc ∧ NameShape n ∧ VersionShape v ∧ SubpathShape sub := by
  rw [matchSpec.eq_def, Option.orElse_eq_some] at h
  rcases h with h | ⟨-, h⟩
  · split at h
    · next c rest =>
      split at h
      · next hc =>
        subst hc
        obtain ⟨⟨t, r⟩, hmem, hf⟩ := firstSome_eq_some h
        obtain ⟨hcat, htne, htp⟩ := greedySplits_sound hmem
        dsimp only at hf
        split at hf
        · next d rem =>
          split at hf
          · next hd =>
            subst hd
            rw [Option.map_eq_some'] at hf
            obtain ⟨⟨n', v', s'⟩, hm, heq⟩ := hf
            obtain ⟨hrm, hnshape, hvshape, hsshape⟩ := matchNameTail_sound hm
            cases heq
            have htp' : ∀ c ∈ t, c ≠ '/' := by
              intro c hc
              have := htp c hc
              simpa [bne_iff_ne] using this
            refine ⟨?_, Or.inr ⟨t, htne, htp', rfl⟩, hnshape, hvshape, hsshape⟩
            rw [hcat, hrm]
            simp [List.append_assoc]
          · cases hf
        · cases hf
      · cases h
    · cases h
  · rw [Option.map_eq_some'] at h
    obtain ⟨⟨n', v', s'⟩, hm, heq⟩ := h
    obtain ⟨hcs, hnshape, hvshape, hsshape⟩ := matchNameTail_sound hm
    cases heq
    exact ⟨by rw [hcs, List.nil_append], Or.inl rfl, hnshape, hvshape, hsshape⟩

theorem matchSubpathEnd_complete {sub : List Char} (hs : SubpathShape sub)
    (hlt : ∀ c ∈ sub, isLineTerminator c = false) :
    matchSubpathEnd sub = some sub := by
  rcases hs with rfl | ⟨t, htne, rfl⟩
  · rfl
  · have htw : t.takeWhile (fun d => !isLineTerminator d) = t := by
      have h1 : ∀ c ∈ t, (!isLineTerminator c) = true := fun c hc => by
        rw [hlt c (List.mem_cons_of_mem _ hc)]
        rfl
      simpa using takeWhile_append_eq t [] h1 (fun c tl hc => by cases hc)
    have hne : t.takeWhile (fun d => !isLineTerminator d) ≠ [] := by
      rw [htw]
      exact htne
    obtain ⟨rest, hgs⟩ := greedySplits_head hne
    rw [htw, List.drop_length] at hgs
    rw [matchSubpathEnd.eq_def]
    dsimp only
    rw [if_pos rfl, hgs]
    simp [firstSome]

theorem matchVersionThenSubpath_complete {v sub : List Char} (hv : VersionShape v)
    (hs : SubpathShape sub) (hlt : ∀ c ∈ sub, isLineTerminator c = false) :
    matchVersionThenSubpath (v ++ sub) = some (v, sub) := by
  have hsub := matchSubpathEnd_complete hs hlt
  rcases hv with rfl | ⟨t, htne, htp, rfl⟩
  · rw [List.nil_append, matchVersionThenSubpath.eq_def]
    rcases hs with rfl | ⟨u, hune, rfl⟩
    · rfl
    · dsimp only
      rw [if_neg (by decide), Option.none_orElse, hsub, Option.map_some']
  · have h1 : ∀ c ∈ t, (c != '/') = true := fun c hc => by
      simpa [bne_iff_ne] using htp c hc
    have h2 : ∀ (c : Char) (tl : List Char), sub = c :: tl → (c != '/') = false := by
      rcases hs with rfl | ⟨u, hune, rfl⟩
      · intro c tl hc
        cases hc
      · intro c tl hc
        injection hc with hc1 _
        subst hc1
        rfl
    have htw : ((t ++ sub).takeWhile fun d => d != '/') = t :=
      takeWhile_append_eq t sub h1 h2
    have hne : ((t ++ sub).takeWhile fun d => d != '/') ≠ [] := by
      rw [htw]
      exact htne
    obtain ⟨rest, hgs⟩ := greedySplits_head hne
    rw [htw, List.drop_left] at hgs
    rw [List.cons_append, matchVersionThenSubpath.eq_def]
    dsimp only
    rw [if_pos rfl, hgs]
    simp [firstSome, hsub]

theorem matchNameTail_complete {n v sub : List Char} (hn : NameShape n)
    (hv : VersionShape v) (hs : SubpathShape sub)
    (hlt : ∀ c ∈ sub, isLineTerminator c = false) :
    matchNameTail (n ++ v ++ sub) = some (n, v, sub) := by
  obtain ⟨hnne, hnp⟩ := hn
  have hvs := matchVersionThenSubpath_complete hv hs hlt
  have h1 : ∀ c ∈ n, (c != '/' && c != '@') = true := fun c hc => by
    simp [bne_iff_ne, (hnp c hc).1, (hnp c hc).2]
  have h2 : ∀ (c : Char) (tl : List Char), v ++ sub = c :: tl →
      (c != '/' && c != '@') = false := by
    intro c tl hc
    rcases hv with rfl | ⟨t, htne, htp, rfl⟩
    · rcases hs with rfl | ⟨u, hune, rfl⟩
      · cases hc
      · rw [List.nil_append] at hc
        injection hc with hc1 _
        subst hc1
        rfl
    · rw [List.cons_append] at hc
      injection hc with hc1 _
      subst hc1
      rfl
  have htw : ((n ++ (v ++ sub)).takeWhile fun d => d != '/' && d != '@') = n :=
    takeWhile_append_eq n (v ++ sub) h1 h2
  have hne : ((n ++ (v ++ sub)).takeWhile fun d => d != '/' && d != '@') ≠ [] := by
    rw [htw]
    exact hnne
  obtain ⟨rest, hgs⟩ := greedySplits_head hne
  rw [htw, List.drop_left] at hgs
  rw [List.append_assoc, matchNameTail.eq_def, hgs]
  simp [firstSome, hvs]

theorem matchSpec_complete {sc n v sub : List Char} (hsc : ScopeShape sc)
    (hn : NameShape n) (hv : VersionShape v) (hs : SubpathShape sub)
    (hlt : ∀ c ∈ sub, isLineTerminator c = false) :
    matchSpec (sc ++ n ++ v ++ sub) = some (sc, n, v, sub) := by
  have hnt := matchNameTail_complete hn hv hs hlt
  rcases hsc with rfl | ⟨t, htne, htp, rfl⟩
  · obtain ⟨hnne, hnp⟩ := hn
    obtain ⟨c, n', rfl⟩ : ∃ c n', n = c :: n' := by
      cases n with
      | nil => exact absurd rfl hnne
      | cons c n' => exact ⟨c, n', rfl⟩
    simp only [List.nil_append, List.cons_append, List.append_assoc] at hnt ⊢
    rw [matchSpec.eq_def]
    dsimp only
    rw [if_neg (hnp c (List.mem_cons_self c n')).2, Option.none_orElse, hnt,
      Option.map_some']
  · have h1 : ∀ c ∈ t, (c != '/') = true := fun c hc => by
      simpa [bne_iff_ne] using htp c hc
    have h2 : ∀ (c : Char) (tl : List Char), '/' :: (n ++ v ++ sub) = c :: tl →
        (c != '/') = false := by
      intro c tl hc
      injection hc with hc1 _
      subst hc1
      rfl
    have htw : ((t ++ ('/' :: (n ++ v ++ sub))).takeWhile fun d => d != '/') = t :=
      takeWhile_append_eq _ _ h1 h2
    have hne : ((t ++ ('/' :: (n ++ v ++ sub))).takeWhile fun d => d != '/') ≠ [] := by
      rw [htw]
      exact htne
    obtain ⟨rest, hgs⟩ := greedySplits_head hne
    rw [htw, List.drop_left] at hgs
    have hshape : (('@' :: (t ++ ['/'])) ++ n ++ v ++ sub : List Char) =
        '@' :: (t ++ ('/' :: (n ++ v ++ sub))) := by
      simp [List.append_assoc]
    rw [hshape, matchSpec.eq_def]
    dsimp only
    rw [if_pos rfl, hgs]
    have hnt2 : matchNameTail (n ++ (v ++ sub)) = some (n, v, sub) := by
      rw [← List.append_assoc]
      exact hnt
    simp [firstSome, hnt2]

theorem mk_append (l₁ l₂ : List Char) :
    String.mk l₁ ++ String.mk l₂ = String.mk (l₁ ++ l₂) := rfl

theorem splitOn_structure (c : Char) : ∀ l : List Char,
    ∃ rs, splitOn c l = (l.takeWhile fun d => d != c) :: rs ∧
      (l.contains c = true →
        rs.getD 0 [] = ((l.dropWhile fun d => d != c).tail).takeWhile fun d => d != c) := by
  intro l
  induction l with
  | nil => exact ⟨[], rfl, by simp⟩
  | cons x xs ih =>
    obtain ⟨rs, hsplit, hsnd⟩ := ih
    by_cases hx : x = c
    · subst hx
      refine ⟨(xs.takeWhile fun d => d != x) :: rs, ?_, ?_⟩
      · rw [splitOn, hsplit]
        simp [List.takeWhile_cons]
      · intro _
        simp [List.dropWhile_cons, List.getD]
    · have hbx : (x != c) = true := by simp [bne_iff_ne, hx]
      refine ⟨rs, ?_, ?_⟩
      · rw [splitOn, hsplit]
        simp [List.takeWhile_cons, hbx, hx]
      · intro hcont
        have hxs : xs.contains c = true := by
          rw [List.contains_cons, Bool.or_eq_true] at hcont
          rcases hcont with hcx | hxs2
          · exact absurd (beq_iff_eq.mp hcx).symm hx
          · exact hxs2
        rw [hsnd hxs]
        simp [List.dropWhile_cons, hbx]

theorem validateEach_ok_mem {l : List PackageToInstall} {u : Unit}
    (h : validateEach l = .ok u) :
    ∀ pkg ∈ l, validateOnePackage pkg = .ok () := by
  induction l with
  | nil => intro pkg hpkg; cases hpkg
  | cons p rest ih =>
    rw [validateEach] at h
    intro pkg hpkg
    rcases List.mem_cons.mp hpkg with rfl | hpkg'
    · split at h
      · cases h
      · next v heq => cases v; exact heq
    · split at h
      · cases h
      · exact ih h pkg hpkg'

theorem validateOnePackage_ok_alias {pkg : PackageToInstall} {u : Unit}
    (h : validateOnePackage pkg = .ok u) :
    isValidJsVariableName pkg.aliasName = true := by
  rw [validateOnePackage] at h
  split at h
  · cases h
  · next hcond => simpa using hcond

theorem validatePackageNames_ok_nodup {newPackages : List PackageToInstall}
    {installed : List InstalledPackage} {u : Unit}
    (h : validatePackageNames newPackages installed = .ok u) :
    ((newPackages.map fun p => p.aliasName) ++
      installed.map fun p => p.aliasName).Nodup := by
  rw [validatePackageNames] at h
  split at h
  · cases h
  · split at h
    · cases h
    · next hcond =>
      have hlen := not_ne_iff.mp hcond
      have hdval := (List.dedup_sublist (allAliases newPackages installed)).eq_of_length hlen.symm
      have hnd := List.dedup_eq_self.mp hdval
      rw [allAliases] at hnd
      exact hnd

theorem validatePackageNames_ok_each {newPackages : List PackageToInstall}
    {installed : List InstalledPackage} {u : Unit}
    (h : validatePackageNames newPackages installed = .ok u) :
    ∀ pkg ∈ newPackages, validateOnePackage pkg = .ok () := by
  rw [validatePackageNames] at h
  split at h
  · cases h
  · next v heq => cases v; exact validateEach_ok_mem heq

theorem installPackages_ok_aliases
    {oracle : PackageToInstall → Except String (String × String)} :
    ∀ {pkgs : List PackageToInstall} {res : List InstalledPackage},
    installPackages oracle pkgs = .ok res →
    (res.map fun p => p.aliasName) = pkgs.map fun p => p.aliasName := by
  intro pkgs
  induction pkgs with
  | nil =>
    intro res h
    rw [installPackages] at h
    cases h
    rfl
  | cons p rest ih =>
    intro res h
    rw [installPackages] at h
    split at h
    · cases h
    · next installed hinst =>
      split at h
      · cases h
      · next others hothers =>
        cases h
        have halias : installed.aliasName = p.aliasName := by
          rw [installPackage] at hinst
          split at hinst
          · cases hinst
            rfl
          · cases hinst
        simp [List.map_cons, halias, ih hothers]

/-- C1 (amended): for every specifier string that decomposes per the grammar
`(@scope/)?name(@version)?(/subpath)?` and whose subpath contains no
line-terminator character (which JavaScript's `.` does not match),
`parsePackageSpec` satisfies `scope + name + version + subpath == s` and
`install == scope + name + version`. -/
theorem C1_parse_roundtrip (s : String) (sc n v sub : List Char)
    (hdata : s.data = sc ++ n ++ v ++ sub)
    (hsc : ScopeShape sc) (hn : NameShape n) (hv : VersionShape v) (hs : SubpathShape sub)
    (hlt : ∀ c ∈ sub, isLineTerminator c = false) :
    (parsePackageSpec s).scope ++ (parsePackageSpec s).name ++
      (parsePackageSpec s).version ++ (parsePackageSpec s).subpath = s ∧
    (parsePackageSpec s).install =
      (parsePackageSpec s).scope ++ (parsePackageSpec s).name ++
        (parsePackageSpec s).version := by
  have hm : matchSpec s.data = some (sc, n, v, sub) := by
    rw [hdata]
    exact matchSpec_complete hsc hn hv hs hlt
  simp only [parsePackageSpec, hm]
  constructor
  · rw [mk_append, mk_append, mk_append, ← hdata]
  · rw [mk_append, mk_append]

/-- Witness for C1 at `"@org/module@4.0.0/subpath"`. -/
theorem C1_parse_roundtrip_witness :
    (parsePackageSpec ("@org/module@4.0.0/subpath")).scope ++
      (parsePackageSpec ("@org/module@4.0.0/subpath")).name ++
      (parsePackageSpec ("@org/module@4.0.0/subpath")).version ++
      (parsePackageSpec ("@org/module@4.0.0/subpath")).subpath =
        ("@org/module@4.0.0/subpath") ∧
    (parsePackageSpec ("@org/module@4.0.0/subpath")).install =
      (parsePackageSpec ("@org/module@4.0.0/subpath")).scope ++
        (parsePackageSpec ("@org/module@4.0.0/subpath")).name ++
        (parsePackageSpec ("@org/module@4.0.0/subpath")).version :=
  C1_parse_roundtrip ("@org/module@4.0.0/subpath")
    ("@org/".data) ("module".data) ("@4.0.0".data) ("/subpath".data)
    (by decide)
    (Or.inr ⟨("org".data), by decide, by decide, by decide⟩)
    ⟨by decide, by decide⟩
    (Or.inr ⟨("4.0.0".data), by decide, by decide, by decide⟩)
    (Or.inr ⟨("subpath".data), by decide, by decide⟩)
    (by decide)

/-- C1 counterexample: `"a/\n"` decomposes per the grammar (name `a`, subpath
`/\n` capturing the remainder), yet the regex fails — JavaScript `.` does not
match the newline — so every field degrades to the empty string and the
reconstruction is not the original text. -/
theorem C1_claim_counterexample :
    MatchesSpecGrammar ("a/\n") ∧
    ¬((parsePackageSpec ("a/\n")).scope ++ (parsePackageSpec ("a/\n")).name ++
      (parsePackageSpec ("a/\n")).version ++ (parsePackageSpec ("a/\n")).subpath =
        ("a/\n")) := by
  constructor
  · exact ⟨[], ['a'], [], ['/', '\n'], by decide, Or.inl rfl, ⟨by decide, by decide⟩,
      Or.inl rfl, Or.inr ⟨['\n'], by decide, rfl⟩⟩
  · decide

/-- C8: `parsePackageSpec` is total by construction; whenever the pattern does
not match (for example on the empty string or a string beginning with `/`),
every field resolves to the empty string. -/
theorem C8_parse_total_empty_on_fail :
    (∀ s : String, matchSpec s.data = none →
      parsePackageSpec s =
        { install := "", scope := "", name := "", version := "", subpath := "" }) ∧
    parsePackageSpec ("") =
      { install := "", scope := "", name := "", version := "", subpath := "" } ∧
    parsePackageSpec ("/subpath") =
      { install := "", scope := "", name := "", version := "", subpath := "" } ∧
    parsePackageSpec ("@scope/") =
      { install := "", scope := "", name := "", version := "", subpath := "" } := by
  refine ⟨?_, by decide, by decide, by decide⟩
  intro s hnone
  simp only [parsePackageSpec, hnone]

/-- Witness for C8 at the malformed specifier `"@"`. -/
theorem C8_parse_total_empty_on_fail_witness :
    parsePackageSpec ("@") =
      { install := "", scope := "", name := "", version := "", subpath := "" } :=
  C8_parse_total_empty_on_fail.1 ("@") (by decide)

/-- C6: validating the two records mapped from `["lodash@3.0.0","lodash@4.0.0"]`
(both defaulting to alias `lodash`) throws the duplicate-alias error, while the
two records mapped from `["l1=lodash@3.0.0","l2=lodash@3.0.0"]` validate
without error. -/
theorem C6_duplicate_alias_examples :
    validatePackageNames (getPackagesToInstallFromArgv ["lodash@3.0.0", "lodash@4.0.0"]) [] =
      .error ("Package names must be unique, or use unique aliases (e.g. \"l=lodash\") to import multiple versions of the same package.") ∧
    validatePackageNames (getPackagesToInstallFromArgv ["l1=lodash@3.0.0", "l2=lodash@3.0.0"]) [] =
      .ok () := by
  constructor
  · rfl
  · rfl

/-- C4 counterexample: a module whose only export is a `default` export with a
falsy value (here `false`) does not get its default value bound — the code also
requires `pkg['default']` to be truthy — so the module object is bound instead. -/
theorem C4_claim_counterexample :
    ([(("default" : String), JsValue.boolean false)].map Prod.fst = ["default"]) ∧
    jsLookup (importPackageIntoContext [] ("m")
        [(("default" : String), JsValue.boolean false)]) ("m") ≠
      some (JsValue.boolean false) := by
  refine ⟨rfl, ?_⟩
  intro h
  have hv : jsLookup (importPackageIntoContext [] ("m")
      [(("default" : String), JsValue.boolean false)]) ("m") =
      some (JsValue.object [(("default" : String), JsValue.boolean false)]) := rfl
  rw [hv] at h
  injection h with h2
  exact JsValue.noConfusion h2

/-- C4 (amended): the default export's value is bound to the alias exactly when
the module's only exported member is `default` and its value is truthy; in
every other case the whole module object is bound. -/
theorem C4_default_export_binding (ctx : List (String × JsValue)) (a : String)
    (pkg : List (String × JsValue)) :
    jsLookup (importPackageIntoContext ctx a pkg) a =
      some (if pkg.map Prod.fst = ["default"] ∧ truthy (jsGet pkg ("default")) = true
        then jsGet pkg ("default") else JsValue.object pkg) := by
  have hlk : jsLookup (importPackageIntoContext ctx a pkg) a =
      some (if ((pkg.map Prod.fst).length == 1) && truthy (jsGet pkg ("default"))
        then jsGet pkg ("default") else JsValue.object pkg) := by
    rw [importPackageIntoContext, jsLookup]
    simp [List.lookup]
  rw [hlk]
  congr 1
  match pkg with
  | [] => simp
  | [(k, w)] =>
    by_cases hk : k = "default"
    · subst hk
      simp
    · have hbk : (("default" : String) == k) = false := beq_eq_false_iff_ne.mpr (Ne.symm hk)
      have hget : jsGet [(k, w)] ("default") = JsValue.undefined := by
        simp [jsGet, List.lookup, hbk]
      simp [hget, truthy, hk]
  | (k1, w1) :: (k2, w2) :: rest =>
    have hlen : ((((k1, w1) :: (k2, w2) :: rest).map Prod.fst).length == 1) = false := by
      simp
    have hne : ((k1, w1) :: (k2, w2) :: rest).map Prod.fst ≠ ["default"] := by
      intro hcontra
      have hc2 := congrArg List.length hcontra
      simp at hc2
    simp [hlen, hne]

/-- C3 counterexample: for the token `a=b=c`, the stored spec is the text
between the first and second `=` (`arg.split('=')[1]`), namely `"b"`, not the
entire text after the first `=` (`"b=c"`) as the claim states. -/
theorem C3_claim_counterexample :
    ((getPackagesToInstallFromArgv ["a=b=c"]).map fun p => p.spec) = ["b"] ∧
    ("b" : String) ≠ "b=c" := by
  refine ⟨rfl, by decide⟩

/-- C3 (amended): `getPackagesToInstallFromArgv` yields exactly one record per
token, in input order; for a token containing `=`, the alias is the text before
the first `=` and the stored/parsed spec is the text between the first and
second `=` (to the end if there is only one `=`); for a token without `=`, the
whole token is the spec and the alias is the parsed name. -/
theorem C3_mapper_fields (argv : List String) :
    (getPackagesToInstallFromArgv argv).length = argv.length ∧
    ∀ (i : ℕ) (h1 : i < argv.length) (h2 : i < (getPackagesToInstallFromArgv argv).length),
      (((argv.get ⟨i, h1⟩).data.contains '=') = true →
        ((getPackagesToInstallFromArgv argv).get ⟨i, h2⟩).aliasName =
          String.mk ((argv.get ⟨i, h1⟩).data.takeWhile fun d => d != '=') ∧
        ((getPackagesToInstallFromArgv argv).get ⟨i, h2⟩).spec =
          String.mk ((((argv.get ⟨i, h1⟩).data.dropWhile fun d => d != '=').tail).takeWhile
            fun d => d != '=') ∧
        ((getPackagesToInstallFromArgv argv).get ⟨i, h2⟩).toPackage =
          parsePackageSpec (((getPackagesToInstallFromArgv argv).get ⟨i, h2⟩).spec)) ∧
      (((argv.get ⟨i, h1⟩).data.contains '=') = false →
        ((getPackagesToInstallFromArgv argv).get ⟨i, h2⟩).spec = argv.get ⟨i, h1⟩ ∧
        ((getPackagesToInstallFromArgv argv).get ⟨i, h2⟩).aliasName =
          (parsePackageSpec (argv.get ⟨i, h1⟩)).name ∧
        ((getPackagesToInstallFromArgv argv).get ⟨i, h2⟩).toPackage =
          parsePackageSpec (argv.get ⟨i, h1⟩)) := by
  constructor
  · simp [getPackagesToInstallFromArgv]
  · intro i h1 h2
    simp only [List.get_eq_getElem]
    obtain ⟨rs, hsplit, hsnd⟩ := splitOn_structure '=' (argv[i].data)
    constructor
    · intro hc
      refine ⟨?_, ?_, ?_⟩
      · simp only [getPackagesToInstallFromArgv, List.getElem_map, hc, if_true, hsplit,
          List.getD_cons_zero]
      · simp only [getPackagesToInstallFromArgv, List.getElem_map, hc, if_true, hsplit,
          List.getD_cons_succ]
        rw [hsnd hc]
      · simp only [getPackagesToInstallFromArgv, List.getElem_map, hc, if_true]
    · intro hc
      refine ⟨?_, ?_, ?_⟩ <;>
        simp only [getPackagesToInstallFromArgv, List.getElem_map, hc, Bool.false_eq_true,
          if_false]

/-- Witness for C3 at the token `m=module@2.0`. -/
theorem C3_mapper_fields_witness :
    ((getPackagesToInstallFromArgv ["m=module@2.0"]).get ⟨0, by decide⟩).aliasName =
      String.mk (("m=module@2.0" : String).data.takeWhile fun d => d != '=') ∧
    ((getPackagesToInstallFromArgv ["m=module@2.0"]).get ⟨0, by decide⟩).spec =
      String.mk (((("m=module@2.0" : String).data.dropWhile fun d => d != '=').tail).takeWhile
        fun d => d != '=') := by
  have h := ((C3_mapper_fields ["m=module@2.0"]).2 0 (by decide) (by decide)).1 (by decide)
  exact ⟨h.1, h.2.1⟩

/-- C7 counterexample: `é` (U+00E9) is a syntactically legal JavaScript
identifier — the host-language identifier grammar is Unicode-aware — and it is
not a reserved word, yet `isValidJsVariableName` rejects it, because the code's
regex `^[a-zA-Z_$][a-zA-Z0-9_$]*$` admits only ASCII identifiers. So alias
validation does not accept exactly the host-language identifier grammar minus
the reserved keywords. -/
theorem C7_claim_counterexample :
    jsIdentifierName ("é") = true ∧
    ("é" : String) ∉ JS_RESERVED_WORDS ∧
    isValidJsVariableName ("é") = false := by
  refine ⟨by decide, by decide, by decide⟩

/-- C7 (amended): alias validation rejects every word of the code's fixed
reserved-word list (hence `class`), rejects every alias starting with a decimal
digit, accepts `_` and `$foo`, and accepts exactly the nonempty ASCII
identifier strings (`[a-zA-Z_$][a-zA-Z0-9_$]*`) that are not in that list — a
proper subset of the host language's Unicode identifier grammar. -/
theorem C7_alias_validation :
    (∀ s ∈ JS_RESERVED_WORDS, isValidJsVariableName s = false) ∧
    (∀ (s : String) (c : Char) (cs : List Char), s.data = c :: cs →
      48 ≤ c.toNat → c.toNat ≤ 57 → isValidJsVariableName s = false) ∧
    isValidJsVariableName ("class") = false ∧
    isValidJsVariableName ("_") = true ∧
    isValidJsVariableName ("$foo") = true ∧
    (∀ s : String, isValidJsVariableName s = true ↔
      ((∃ c cs, s.data = c :: cs ∧ isJsIdentStartChar c = true ∧
        ∀ d ∈ cs, isJsIdentChar d = true) ∧ s ∉ JS_RESERVED_WORDS)) := by
  refine ⟨?_, ?_, by decide, by decide, by decide, ?_⟩
  · intro s hs
    have hc : JS_RESERVED_WORDS.contains s = true := List.elem_iff.mpr hs
    rw [isValidJsVariableName, if_pos hc]
  · intro s c cs hdata h48 h57
    have hstart : isJsIdentStartChar c = false := by
      rw [isJsIdentStartChar]
      have e1 : decide (97 ≤ c.toNat) = false := decide_eq_false (by omega)
      have e2 : decide (65 ≤ c.toNat) = false := decide_eq_false (by omega)
      have e3 : (c.toNat == 95) = false := beq_eq_false_iff_ne.mpr (by omega)
      have e4 : (c.toNat == 36) = false := beq_eq_false_iff_ne.mpr (by omega)
      rw [e1, e2, e3, e4]
      rfl
    rw [isValidJsVariableName]
    split
    · rfl
    · rw [hdata]
      dsimp only
      rw [hstart, Bool.false_and]
  · intro s
    rw [isValidJsVariableName]
    split
    · next hres =>
      constructor
      · intro h
        cases h
      · rintro ⟨-, hnot⟩
        exact absurd (List.elem_iff.mp hres) hnot
    · next hres =>
      have hnotmem : s ∉ JS_RESERVED_WORDS := fun hmem => hres (List.elem_iff.mpr hmem)
      cases hd : s.data with
      | nil =>
        constructor
        · intro h
          exact Bool.noConfusion h
        · rintro ⟨⟨c, cs, hcs, -, -⟩, -⟩
          cases hcs
      | cons c cs =>
        dsimp only
        constructor
        · intro h
          rw [Bool.and_eq_true, List.all_eq_true] at h
          exact ⟨⟨c, cs, rfl, h.1, h.2⟩, hnotmem⟩
        · rintro ⟨⟨c2, cs2, hcs2, hstart, hall⟩, -⟩
          injection hcs2 with e1 e2
          subst e1
          subst e2
          rw [Bool.and_eq_true, List.all_eq_true]
          exact ⟨hstart, hall⟩

/-- Witness for C7 at the digit-initial alias `9abc`. -/
theorem C7_alias_validation_witness :
    isValidJsVariableName ("9abc") = false :=
  C7_alias_validation.2.1 ("9abc") '9' ("abc".data) (by decide) (by decide) (by decide)

/-- A specifier that decomposes per the grammar and whose whole text contains
no line terminator is matched by the pattern. -/
theorem grammar_noLT_isSome {s : String} (hg : MatchesSpecGrammar s)
    (hlt : ∀ c ∈ s.data, isLineTerminator c = false) :
    ∃ x, matchSpec s.data = some x := by
  obtain ⟨sc, n, v, sub, hd, hsc, hn, hv, hs⟩ := hg
  refine ⟨(sc, n, v, sub), ?_⟩
  rw [hd]
  refine matchSpec_complete hsc hn hv hs fun c hc => hlt c ?_
  rw [hd]
  exact List.mem_append_right _ hc

/-- C10: a no-alias token that does not match the specifier grammar maps to a
record whose alias is the empty string; `validatePackageNames` always rejects a
batch containing an empty-string alias; and every batch that validates consists
only of records whose alias is a nonempty legal identifier. -/
theorem C10_alias_nonempty (arg : String) (newPackages : List PackageToInstall)
    (installed : List InstalledPackage) :
    (arg.data.contains '=' = false → ¬ MatchesSpecGrammar arg →
      ∀ pkg ∈ getPackagesToInstallFromArgv [arg], pkg.aliasName = "") ∧
    ((∃ pkg ∈ newPackages, pkg.aliasName = "") →
      ∃ e, validatePackageNames newPackages installed = .error e) ∧
    (∀ u, validatePackageNames newPackages installed = .ok u →
      ∀ pkg ∈ newPackages, isValidJsVariableName pkg.aliasName = true ∧
        pkg.aliasName ≠ "") := by
  refine ⟨?_, ?_, ?_⟩
  · intro hnoeq hng pkg hpkg
    have hmnone : matchSpec arg.data = none := by
      cases hm : matchSpec arg.data with
      | none => rfl
      | some x =>
        obtain ⟨sc, n, v, sub⟩ := x
        obtain ⟨hd, hsc, hn, hv, hs⟩ := matchSpec_sound hm
        exact absurd ⟨sc, n, v, sub, hd, hsc, hn, hv, hs⟩ hng
    simp only [getPackagesToInstallFromArgv, List.map_cons, List.map_nil,
      List.mem_singleton] at hpkg
    subst hpkg
    have hnm : ¬('=' ∈ arg.data) := by
      intro hmem
      have hc2 : arg.data.contains '=' = true := List.elem_iff.mpr hmem
      rw [hnoeq] at hc2
      cases hc2
    simp [hnm, parsePackageSpec, hmnone]
  · rintro ⟨pkg, hmem, halias⟩
    cases hve : validateEach newPackages with
    | error e =>
      refine ⟨e, ?_⟩
      rw [validatePackageNames, hve]
    | ok u =>
      have h1 := validateEach_ok_mem hve pkg hmem
      rw [validateOnePackage, halias] at h1
      rw [(by decide : isValidJsVariableName ("") = false)] at h1
      simp at h1
  · intro u hok pkg hmem
    have h1 := validatePackageNames_ok_each hok pkg hmem
    have h2 := validateOnePackage_ok_alias h1
    refine ⟨h2, ?_⟩
    intro hempty
    rw [hempty, (by decide : isValidJsVariableName ("") = false)] at h2
    cases h2

/-- Witness for C10 at the no-alias, non-matching token `/x`. -/
theorem C10_alias_nonempty_witness :
    ((getPackagesToInstallFromArgv ["/x"]).get ⟨0, by decide⟩).aliasName = "" := by
  have hng : ¬ MatchesSpecGrammar ("/x") := by
    intro hg
    obtain ⟨x, hx⟩ := grammar_noLT_isSome hg (by decide)
    rw [(by decide : matchSpec (("/x" : String).data) = none)] at hx
    cases hx
  exact (C10_alias_nonempty ("/x") [] []).1 (by decide) hng _ (List.get_mem _ _ _)

/-- C2: every installed-package list reachable in a session — built by the
startup installation and extended only by successful `.import` batches, each
validated against the already-installed aliases — has pairwise-distinct
aliases. -/
theorem C2_session_aliases_nodup (l : List InstalledPackage) (h : ReachableList l) :
    (l.map fun p => p.aliasName).Nodup := by
  induction h with
  | startup oracle argv pkgs hmain =>
    rw [main] at hmain
    split at hmain
    · cases hmain
    · next u hval =>
      have hnd := validatePackageNames_ok_nodup hval
      rw [List.map_nil, List.append_nil] at hnd
      rw [installPackages_ok_aliases hmain]
      exact hnd
  | importCmd oracle argv l hl ih =>
    rw [importAdditionalPackagesViaCommand]
    split
    · exact ih
    · next u hval =>
      split
      · exact ih
      · next newly hinst =>
        rw [List.map_append, installPackages_ok_aliases hinst]
        exact List.perm_append_comm.nodup (validatePackageNames_ok_nodup hval)

/-- Witness for C2: the empty session reached by a startup with no packages. -/
theorem C2_session_aliases_nodup_witness :
    ((([] : List InstalledPackage)).map fun p => p.aliasName).Nodup :=
  C2_session_aliases_nodup []
    (ReachableList.startup (fun _ => .ok ("u", "p")) [] [] rfl)

/-- C5: whenever `validatePackageNames` throws, no installation has been
attempted: for every installer oracle, the CLI startup path returns exactly the
validation error, and the `.import` path leaves the installed-package list
unchanged. -/
theorem C5_validation_before_install (argv : List String)
    (installed : List InstalledPackage) (e : String) :
    (validatePackageNames (getPackagesToInstallFromArgv argv) [] = .error e →
      ∀ oracle, main oracle argv = .error e) ∧
    (validatePackageNames (getPackagesToInstallFromArgv argv) installed = .error e →
      ∀ oracle, importAdditionalPackagesViaCommand oracle argv installed = installed) := by
  constructor
  · intro hval oracle
    rw [main, hval]
  · intro hval oracle
    rw [importAdditionalPackagesViaCommand, hval]

/-- Witness for C5: startup with the invalid alias `1bad` fails with the
validation error for every oracle. -/
theorem C5_validation_before_install_witness :
    main (fun _ => .ok ("u", "p")) ["1bad"] =
      .error ("Invalid alias: 1bad. Aliases must be valid JavaScript variable names.") :=
  (C5_validation_before_install ["1bad"] []
    ("Invalid alias: 1bad. Aliases must be valid JavaScript variable names.")).1
    rfl (fun _ => .ok ("u", "p"))

/-- C9: the `.import` handler leaves the session's installed-package list
exactly as it was when validation or any installation of the batch fails, and
appends the whole batch only after every installation succeeded. -/
theorem C9_import_batch_atomic
    (oracle : PackageToInstall → Except String (String × String))
    (argv : List String) (installed : List InstalledPackage) :
    (∀ e, validatePackageNames (getPackagesToInstallFromArgv argv) installed = .error e →
      importAdditionalPackagesViaCommand oracle argv installed = installed) ∧
    (∀ u e, validatePackageNames (getPackagesToInstallFromArgv argv) installed = .ok u →
      installPackages oracle (getPackagesToInstallFromArgv argv) = .error e →
      importAdditionalPackagesViaCommand oracle argv installed = installed) ∧
    (∀ u newly, validatePackageNames (getPackagesToInstallFromArgv argv) installed = .ok u →
      installPackages oracle (getPackagesToInstallFromArgv argv) = .ok newly →
      importAdditionalPackagesViaCommand oracle argv installed = installed ++ newly) := by
  refine ⟨?_, ?_, ?_⟩
  · intro e hval
    rw [importAdditionalPackagesViaCommand, hval]
  · intro u e hval hinst
    cases u
    rw [importAdditionalPackagesViaCommand, hval, hinst]
  · intro u newly hval hinst
    cases u
    rw [importAdditionalPackagesViaCommand, hval, hinst]

/-- Witness for C9: an oracle whose installation fails leaves the empty session
list unchanged. -/
theorem C9_import_batch_atomic_witness :
    importAdditionalPackagesViaCommand (fun _ => .error ("boom")) ["lodash"] [] = [] :=
  (C9_import_batch_atomic (fun _ => .error ("boom")) ["lodash"] []).2.1 ()
    ("Failed to install " ++ "lodash" ++ ":") rfl rfl

end ReplWith
